import Mathlib

/-!
Verification of the context-assembly subsystem of the BBNJ question-answering
bot (`gradioserver.py`): the `DocumentStringBuilder` class (its constructor,
`addChunk`, and `__str__`) and the `chunksToText` ingestion loop.

The token counter (`countTokens`, backed by tiktoken) is opaque text
processing; it is modelled as an arbitrary function `count : String → Nat`
that every statement quantifies over.  Python dictionaries preserve insertion
order, so the `self.documents` dict and the nested `headers` dicts are
modelled as insertion-ordered association lists with unique keys.  Python's
`sorted` is a stable sort; it is modelled by a stable insertion sort
(`stableSortBy` below), which agrees with every stable sorting algorithm.
-/

/-- A retrieved fragment record, as fetched from the Weaviate index: fields
`documentId`, `documentTitle`, `header`, `content`, `chunkNumber`.  The
`header` property can come back as Python `None`, hence `Option String`. -/
structure Fragment where
  documentId : String
  documentTitle : String
  header : Option String
  content : String
  chunkNumber : Int
deriving DecidableEq, Repr

/-- One element of a header group's `chunks` list:
`{"content": content, "chunkNumber": chunkNumber}`. -/
structure Chunk where
  content : String
  chunkNumber : Int
deriving DecidableEq, Repr

/-- One value of the `headers` dict:
`{"header": header, "chunks": [...]}`. -/
structure HeaderGroup where
  header : String
  chunks : List Chunk
deriving DecidableEq, Repr

/-- One value of the `self.documents` dict:
`{"documentTitle": ..., "insertOrder": ..., "headers": {...}}`. -/
structure DocEntry where
  documentTitle : String
  insertOrder : Nat
  headers : List (String × HeaderGroup)
deriving DecidableEq, Repr

/-- The state of a `DocumentStringBuilder`: `self.maxTokens`,
`self.tokenCount` and `self.documents`.  `maxTokens` is a plain Python int
(the constructor performs no validation), so it is an `Int`; `tokenCount` is
a sum of `countTokens` results, hence a `Nat`. -/
structure DocumentStringBuilder where
  maxTokens : Int
  tokenCount : Nat
  documents : List (String × DocEntry)
deriving DecidableEq, Repr

/-- `DocumentStringBuilder.__init__`: stores `maxTokens` unchanged (there is
no validation or clamping in the source), sets `self.tokenCount = 0` and
`self.documents = {}`. -/
def DocumentStringBuilder.init (maxTokens : Int) : DocumentStringBuilder :=
  { maxTokens := maxTokens, tokenCount := 0, documents := [] }

/-- Lookup in an insertion-ordered dict (first matching key). -/
def lookupA {α : Type} (k : String) : List (String × α) → Option α
  | [] => none
  | p :: rest => if p.1 = k then some p.2 else lookupA k rest

/-- Python `k in d` membership test on a dict. -/
def hasKeyA {α : Type} (k : String) (l : List (String × α)) : Bool :=
  (lookupA k l).isSome

/-- Python `d[k] = f(d[k])`-style in-place update of the entry with key `k`
(keys are unique in all dicts built below, and only the first match is
updated, consistent with `lookupA`). -/
def updateA {α : Type} (k : String) (g : α → α) : List (String × α) → List (String × α)
  | [] => []
  | p :: rest => if p.1 = k then (p.1, g p.2) :: rest else p :: updateA k g rest

/-- Line 225-226 of the source: `None` headers are converted to `''`. -/
def normHeader (h : Option String) : String := h.getD ""

/-- The `if documentId not in self.documents:` block of `addChunk`: a new
document entry is created with `insertOrder = len(self.documents)` and an
empty `headers` dict; an existing entry is left alone. -/
def docsAfterDocInsert (b : DocumentStringBuilder) (f : Fragment) :
    List (String × DocEntry) :=
  if hasKeyA f.documentId b.documents then b.documents
  else b.documents ++
    [(f.documentId,
      { documentTitle := f.documentTitle,
        insertOrder := b.documents.length,
        headers := [] })]

/-- Python `header not in self.documents[documentId]['headers']`, evaluated
on a given documents dict. -/
def hasHeaderKey (d hdr : String) (docs : List (String × DocEntry)) : Bool :=
  match lookupA d docs with
  | some e => hasKeyA hdr e.headers
  | none => false

/-- The header-insertion and chunk-append steps of `addChunk`, acting on one
document entry: create `{"header": header, "chunks": []}` if the header is
new, then append `{"content": ..., "chunkNumber": ...}` to its chunk list. -/
def addChunkToDoc (hdr : String) (c : Chunk) (e : DocEntry) : DocEntry :=
  let headers1 :=
    if hasKeyA hdr e.headers then e.headers
    else e.headers ++ [(hdr, { header := hdr, chunks := [] })]
  { e with headers := updateA hdr (fun g => { g with chunks := g.chunks ++ [c] }) headers1 }

/-- The state after the non-overflow path of `addChunk` runs to completion:
`self.tokenCount` gains `countTokens(documentTitle)` when the document is
new, `countTokens(header)` when the (normalized) header is new for that
document, and always `countTokens(content)`; the chunk is appended to its
header group's list. -/
def commitChunk (count : String → Nat) (b : DocumentStringBuilder) (f : Fragment) :
    DocumentStringBuilder :=
  let titleCost := if hasKeyA f.documentId b.documents then 0 else count f.documentTitle
  let docs1 := docsAfterDocInsert b f
  let hdr := normHeader f.header
  let headerCost := if hasHeaderKey f.documentId hdr docs1 then 0 else count hdr
  { maxTokens := b.maxTokens,
    tokenCount := b.tokenCount + titleCost + headerCost + count f.content,
    documents :=
      updateA f.documentId
        (addChunkToDoc hdr { content := f.content, chunkNumber := f.chunkNumber })
        docs1 }

/-- `DocumentStringBuilder.addChunk`.  The overflow test is the first
statement of the method and uses only `chunkSize = countTokens(content)`:
`if chunkSize + self.tokenCount > self.maxTokens: raise OverflowError`.
A raised `OverflowError` is modelled as `Except.error s` where `s` is the
builder state at the moment of the raise (the caller's object keeps exactly
that state); normal return is `Except.ok` of the updated state. -/
def DocumentStringBuilder.addChunk (count : String → Nat) (b : DocumentStringBuilder)
    (f : Fragment) : Except DocumentStringBuilder DocumentStringBuilder :=
  let chunkSize := count f.content
  if (chunkSize : Int) + (b.tokenCount : Int) > b.maxTokens then
    Except.error b
  else
    Except.ok (commitChunk count b f)

/-- Observer: did the `addChunk` call raise `OverflowError`? -/
def isOverflow : Except DocumentStringBuilder DocumentStringBuilder → Bool
  | Except.error _ => true
  | Except.ok _ => false

/-- Observer: the `tokenCount` of the builder after an `addChunk` call,
whether it returned normally or raised. -/
def resTokenCount : Except DocumentStringBuilder DocumentStringBuilder → Nat
  | Except.error s => s.tokenCount
  | Except.ok s => s.tokenCount

/-- The ingestion loop of `chunksToText`: feed fragments one at a time,
`break` on the first `OverflowError`. -/
def ingestList (count : String → Nat) (b : DocumentStringBuilder) :
    List Fragment → DocumentStringBuilder
  | [] => b
  | f :: rest =>
    match DocumentStringBuilder.addChunk count b f with
    | Except.error _ => b
    | Except.ok b1 => ingestList count b1 rest

/-- Does every `addChunk` call in the sequence succeed (no overflow)? -/
def allAcceptedB (count : String → Nat) (b : DocumentStringBuilder) :
    List Fragment → Bool
  | [] => true
  | f :: rest =>
    match DocumentStringBuilder.addChunk count b f with
    | Except.error _ => false
    | Except.ok b1 => allAcceptedB count b1 rest

/- ## The renderer (`__str__`) -/

/-- Stable insertion used by `stableSortBy`: `x` is placed after every
already-placed element `y` with `le y x = true`. -/
def insertSorted {α : Type} (le : α → α → Bool) (x : α) : List α → List α
  | [] => [x]
  | y :: ys => if le y x then y :: insertSorted le x ys else x :: y :: ys

/-- Model of Python's `sorted(..., key=...)`: a stable sort (insertion sort
processing the list left to right).  Python's Timsort is also stable, and
all stable sorts by the same key agree. -/
def stableSortBy {α : Type} (le : α → α → Bool) (l : List α) : List α :=
  l.foldl (fun acc x => insertSorted le x acc) []

/-- `sorted(header['chunks'], key=lambda chunk: chunk['chunkNumber'])`. -/
def sortChunks (cs : List Chunk) : List Chunk :=
  stableSortBy (fun a b => decide (a.chunkNumber ≤ b.chunkNumber)) cs

/-- The chunk loop of `__str__` with its `previousChunkNumber` tracker
(initialized to `0`): a standalone `'...'` line is emitted before a chunk
exactly when `previousChunkNumber != 0 and chunkNumber != previousChunkNumber+1`. -/
def chunkLines : Int → List Chunk → List String
  | _, [] => []
  | prev, c :: rest =>
    (if prev ≠ 0 ∧ c.chunkNumber ≠ prev + 1 then ["..."] else []) ++
      (c.content :: chunkLines c.chunkNumber rest)

/-- Sort key of the header loop: `h[1]['chunks'][0]['chunkNumber']`, the
chunk number of the group's first-arriving chunk.  (The Python indexing
`[0]` presupposes a non-empty chunk list, which holds for every group the
builder creates; an empty group gets key `0` here.) -/
def firstChunkNumber (g : HeaderGroup) : Int :=
  match g.chunks with
  | [] => 0
  | c :: _ => c.chunkNumber

/-- `sorted(document['headers'].items(), key=lambda h: h[1]['chunks'][0]['chunkNumber'])`. -/
def sortHeaders (hs : List (String × HeaderGroup)) : List (String × HeaderGroup) :=
  stableSortBy (fun a b => decide (firstChunkNumber a.2 ≤ firstChunkNumber b.2)) hs

/-- Models the guard `if header != '':` in `__str__`.  The loop is
`for throwaway, header in sorted(...)`, so `header` is bound to the
header-group dict, not to the header string (which is bound to `throwaway`);
in Python a dict is unequal to every string, so this test is always true. -/
def groupNeEmptyStr (_g : HeaderGroup) : Bool := true

/-- The lines emitted for one header group: the
`lines.append(header['header'] + ':')` line (guarded by the always-true
test above) followed by the chunk lines. -/
def headerGroupLines (g : HeaderGroup) : List String :=
  (if groupNeEmptyStr g then [g.header ++ ":"] else []) ++
    chunkLines 0 (sortChunks g.chunks)

/-- Python `str.upper()` (character-wise uppercasing, as performed by
`documentTitle.upper()`).  This is `String.toUpper` written so that it
reduces in the kernel (`String.toUpper` itself recurses on byte positions,
which the kernel cannot unfold). -/
def pyUpper (s : String) : String := String.mk (s.data.map Char.toUpper)

/-- The lines emitted for one document: the `From document "..."` title line
(upper-cased, with the hacky `FINAL ` prefix when `documentId == '0'`), the
header groups in sorted order, then the `''` separator. -/
def docLines (documentId : String) (e : DocEntry) : List String :=
  let extraHackyFinalWord := if documentId = "0" then "FINAL " else ""
  ("From document \"" ++ extraHackyFinalWord ++ pyUpper e.documentTitle ++ "\":")
    :: ((sortHeaders e.headers).flatMap (fun p => headerGroupLines p.2) ++ [""])

/-- `sorted(self.documents.items(), key=lambda doc: doc[1]['insertOrder'])`. -/
def sortDocs (ds : List (String × DocEntry)) : List (String × DocEntry) :=
  stableSortBy (fun a b => decide (a.2.insertOrder ≤ b.2.insertOrder)) ds

/-- All lines accumulated by `__str__`, in order. -/
def strLines (b : DocumentStringBuilder) : List String :=
  (sortDocs b.documents).flatMap (fun p => docLines p.1 p.2)

/-- `DocumentStringBuilder.__str__`: `'\n'.join(lines)`. -/
def DocumentStringBuilder.str (b : DocumentStringBuilder) : String :=
  String.intercalate "\n" (strLines b)

/-- The documentId order in which `__str__` iterates (and hence renders)
the documents. -/
def renderDocOrder (b : DocumentStringBuilder) : List String :=
  (sortDocs b.documents).map Prod.fst

/-- `chunksToText`: build a fresh builder, ingest until the first overflow,
render. -/
def chunksToText (count : String → Nat) (maxTokens : Int)
    (chunks : List Fragment) : String :=
  DocumentStringBuilder.str (ingestList count (DocumentStringBuilder.init maxTokens) chunks)

/- ## Observers of the builder state -/

/-- The documentIds in dict order (= first-seen order). -/
def docKeys (b : DocumentStringBuilder) : List String :=
  b.documents.map Prod.fst

/-- The `insertOrder` fields in dict order. -/
def insertOrders (b : DocumentStringBuilder) : List Nat :=
  b.documents.map (fun p => p.2.insertOrder)

/-- How a Python dict's key list evolves on `d[x] = ...`: unchanged if the
key exists, appended otherwise. -/
def seenInsert (x : String) (acc : List String) : List String :=
  if x ∈ acc then acc else acc ++ [x]

/-- The chunk list stored under header `hdr` of a document entry (empty when
the header is absent). -/
def entryChunks (e : DocEntry) (hdr : String) : List Chunk :=
  match lookupA hdr e.headers with
  | none => []
  | some g => g.chunks

/-- The chunk list stored under `(d, hdr)` in a builder (empty when the
document or header is absent). -/
def groupChunks (b : DocumentStringBuilder) (d hdr : String) : List Chunk :=
  match lookupA d b.documents with
  | none => []
  | some e => entryChunks e hdr

/-- The first-arriving chunk of the `(d, hdr)` group, if any. -/
def groupHeadChunk (b : DocumentStringBuilder) (d hdr : String) : Option Chunk :=
  (groupChunks b d hdr).head?

/-- Is there a `(d, hdr)` header group in the builder? -/
def hasGroupB (b : DocumentStringBuilder) (d hdr : String) : Bool :=
  hasHeaderKey d hdr b.documents

/-- Left-biased choice on `Option` (like Python `a if a is not None else b`). -/
def optOr {α : Type} : Option α → Option α → Option α
  | some v, _ => some v
  | none, o => o

/-- Does a fragment belong to the `(d, hdr)` group (same documentId and same
normalized header)? -/
def fragMatches (d hdr : String) (f : Fragment) : Bool :=
  f.documentId == d && normHeader f.header == hdr

/-- The chunk number of the first fragment of the sequence `fs` that was
ingested into the `(d, hdr)` group (0 if there is none). -/
def firstArrivalNum (fs : List Fragment) (d hdr : String) : Int :=
  match fs.find? (fragMatches d hdr) with
  | some f => f.chunkNumber
  | none => 0

/-- Index of the first occurrence of `x` (length of the list when absent). -/
def posOf (x : String) : List String → Nat
  | [] => 0
  | y :: ys => if y = x then 0 else posOf x ys + 1

/-- Number of occurrences of the string `s` in a list of lines. -/
def countOcc (s : String) : List String → Nat
  | [] => 0
  | x :: xs => (if x = s then 1 else 0) + countOcc s xs

/-- The invariant that the `insertOrder` fields are exactly `0, 1, 2, ...`
in dict order (which makes the render-time sort the identity). -/
def OrdersOk (b : DocumentStringBuilder) : Prop :=
  insertOrders b = List.range b.documents.length

/-- Well-formedness: dict keys are unique at both nesting levels (as Python
dict keys always are). -/
def WFb (b : DocumentStringBuilder) : Prop :=
  (docKeys b).Nodup ∧ ∀ p ∈ b.documents, (p.2.headers.map Prod.fst).Nodup

/-- Formalizes the token-total formula of the claim (C8): the sum over all
ingested fragments of `count(content)`, plus `count(documentTitle)` once for
each distinct documentId, plus `count(normalizedHeader)` once for each
distinct (documentId, normalized header) pair.  The accumulators carry the
documentIds and (documentId, header) pairs already charged. -/
def claimedTokenTotal (count : String → Nat) (seenDocs : List String)
    (seenHdrs : List (String × String)) : List Fragment → Nat
  | [] => 0
  | f :: rest =>
    let hdr := normHeader f.header
    count f.content
      + (if f.documentId ∈ seenDocs then 0 else count f.documentTitle)
      + (if (f.documentId, hdr) ∈ seenHdrs then 0 else count hdr)
      + claimedTokenTotal count (seenInsert f.documentId seenDocs)
          (if (f.documentId, hdr) ∈ seenHdrs then seenHdrs
           else seenHdrs ++ [(f.documentId, hdr)]) rest

/-- Concrete builder used by the C10 witness: the state after ingesting
`⟨"d", "T", none, "ab", 1⟩` into a fresh builder with budget 20 (token
counter `String.length`). -/
def c10b1 : DocumentStringBuilder :=
  { maxTokens := 20, tokenCount := 3,
    documents := [("d",
      { documentTitle := "T", insertOrder := 0,
        headers := [("", { header := "", chunks := [⟨"ab", 1⟩] })] })] }

/-- Concrete builder used by the C10 witness: the state after ingesting the
same fragment a second time. -/
def c10b2 : DocumentStringBuilder :=
  { maxTokens := 20, tokenCount := 5,
    documents := [("d",
      { documentTitle := "T", insertOrder := 0,
        headers := [("", { header := "", chunks := [⟨"ab", 1⟩, ⟨"ab", 1⟩] })] })] }

/-- Concrete fragment sequence used by the C8 witness: two fragments sharing
document "a" and header "H", then one fragment of document "b" with no
header. -/
def c8frags : List Fragment :=
  [⟨"a", "TA", some "H", "x", 1⟩, ⟨"a", "TA", some "H", "yy", 2⟩,
   ⟨"b", "TB", none, "z", 3⟩]

/-- Concrete fragment sequence used by the C7 witness: two fragments of one
document, headers "H2" (sequence number 5) then "H1" (sequence number 2). -/
def c7frags : List Fragment :=
  [⟨"a", "T", some "H2", "xx", 5⟩, ⟨"a", "T", some "H1", "y", 2⟩]

/-- Concrete document entry used by the C7 witness: the entry for document
"a" after ingesting `c7frags`. -/
def c7entry : DocEntry :=
  { documentTitle := "T", insertOrder := 0,
    headers := [("H2", { header := "H2", chunks := [⟨"xx", 5⟩] }),
                ("H1", { header := "H1", chunks := [⟨"y", 2⟩] })] }

/- ## Helper lemmas about `addChunk` -/

theorem addChunk_eq_error {count : String → Nat} {b : DocumentStringBuilder}
    {f : Fragment} {s : DocumentStringBuilder}
    (h : DocumentStringBuilder.addChunk count b f = Except.error s) :
    s = b ∧ (count f.content : Int) + (b.tokenCount : Int) > b.maxTokens := by
  simp only [DocumentStringBuilder.addChunk] at h
  split at h
  · exact ⟨(Except.error.inj h).symm, by assumption⟩
  · exact absurd h (by simp)

theorem addChunk_eq_ok {count : String → Nat} {b : DocumentStringBuilder}
    {f : Fragment} {b' : DocumentStringBuilder}
    (h : DocumentStringBuilder.addChunk count b f = Except.ok b') :
    b' = commitChunk count b f ∧
      (count f.content : Int) + (b.tokenCount : Int) ≤ b.maxTokens := by
  simp only [DocumentStringBuilder.addChunk] at h
  split at h
  · exact absurd h (by simp)
  · exact ⟨(Except.ok.inj h).symm, by omega⟩

theorem isOverflow_addChunk (count : String → Nat) (b : DocumentStringBuilder)
    (f : Fragment) :
    isOverflow (DocumentStringBuilder.addChunk count b f) =
      decide ((count f.content : Int) + (b.tokenCount : Int) > b.maxTokens) := by
  simp only [DocumentStringBuilder.addChunk]
  split
  · next hgt => simp [isOverflow, hgt]
  · next hle => simp [isOverflow, hle]

theorem commitChunk_tokenCount (count : String → Nat) (b : DocumentStringBuilder)
    (f : Fragment) :
    (commitChunk count b f).tokenCount =
      b.tokenCount
      + (if hasKeyA f.documentId b.documents then 0 else count f.documentTitle)
      + (if hasHeaderKey f.documentId (normHeader f.header) (docsAfterDocInsert b f)
          then 0 else count (normHeader f.header))
      + count f.content := rfl

theorem commitChunk_maxTokens (count : String → Nat) (b : DocumentStringBuilder)
    (f : Fragment) : (commitChunk count b f).maxTokens = b.maxTokens := rfl

/- ## Lemmas about the stable sort -/

theorem insertSorted_perm {α : Type} (le : α → α → Bool) (x : α) (l : List α) :
    (insertSorted le x l).Perm (x :: l) := by
  induction l with
  | nil => exact List.Perm.refl _
  | cons y ys ih =>
    unfold insertSorted
    split
    · exact ((ih.cons y).trans (List.Perm.swap x y ys))
    · exact List.Perm.refl _

theorem stableSortBy_perm {α : Type} (le : α → α → Bool) (l : List α) :
    (stableSortBy le l).Perm l := by
  have key : ∀ (l acc : List α),
      (l.foldl (fun acc x => insertSorted le x acc) acc).Perm (acc ++ l) := by
    intro l
    induction l with
    | nil => intro acc; simp
    | cons x xs ih =>
      intro acc
      have h1 := ih (insertSorted le x acc)
      have h2 : (insertSorted le x acc ++ xs).Perm (acc ++ x :: xs) := by
        have := (insertSorted_perm le x acc).append_right xs
        exact this.trans (List.perm_middle.symm)
      simpa using h1.trans h2
  simpa using key l []

theorem mem_stableSortBy {α : Type} {le : α → α → Bool} {x : α} {l : List α} :
    x ∈ stableSortBy le l ↔ x ∈ l :=
  (stableSortBy_perm le l).mem_iff

theorem insertSorted_pairwise {α : Type} {le : α → α → Bool}
    (htrans : ∀ a b c, le a b = true → le b c = true → le a c = true)
    (htot : ∀ a b, le a b = false → le b a = true)
    (x : α) {l : List α} (hl : l.Pairwise (fun a b => le a b = true)) :
    (insertSorted le x l).Pairwise (fun a b => le a b = true) := by
  induction l with
  | nil => simp [insertSorted]
  | cons y ys ih =>
    rcases List.pairwise_cons.mp hl with ⟨hy, hys⟩
    unfold insertSorted
    split
    · next hyx =>
      refine List.pairwise_cons.mpr ⟨?_, ih hys⟩
      intro z hz
      rcases List.mem_cons.mp ((insertSorted_perm le x ys).mem_iff.mp hz) with h | h
      · exact h ▸ hyx
      · exact hy z h
    · next hyx =>
      have hxy : le x y = true := htot _ _ (by simpa using hyx)
      refine List.pairwise_cons.mpr ⟨?_, hl⟩
      intro z hz
      rcases List.mem_cons.mp hz with h | h
      · exact h ▸ hxy
      · exact htrans _ _ _ hxy (hy z h)

theorem stableSortBy_pairwise {α : Type} {le : α → α → Bool}
    (htrans : ∀ a b c, le a b = true → le b c = true → le a c = true)
    (htot : ∀ a b, le a b = false → le b a = true) (l : List α) :
    (stableSortBy le l).Pairwise (fun a b => le a b = true) := by
  have key : ∀ (l acc : List α), acc.Pairwise (fun a b => le a b = true) →
      (l.foldl (fun acc x => insertSorted le x acc) acc).Pairwise
        (fun a b => le a b = true) := by
    intro l
    induction l with
    | nil => intro acc h; simpa using h
    | cons x xs ih =>
      intro acc h
      exact ih _ (insertSorted_pairwise htrans htot x h)
  exact key l [] (by simp)

theorem insertSorted_of_all_le {α : Type} {le : α → α → Bool} {x : α} {l : List α}
    (h : ∀ y ∈ l, le y x = true) : insertSorted le x l = l ++ [x] := by
  induction l with
  | nil => rfl
  | cons y ys ih =>
    unfold insertSorted
    rw [if_pos (h y (by simp))]
    simp [ih (fun z hz => h z (by simp [hz]))]

/-- Sorting a list whose keys are already pairwise `le` leaves it unchanged
(a stable sort of an already-sorted list is the identity). -/
theorem stableSortBy_of_pairwise {α : Type} {le : α → α → Bool} {l : List α}
    (h : l.Pairwise (fun a b => le a b = true)) : stableSortBy le l = l := by
  have key : ∀ (l acc : List α),
      (acc ++ l).Pairwise (fun a b => le a b = true) →
      l.foldl (fun acc x => insertSorted le x acc) acc = acc ++ l := by
    intro l
    induction l with
    | nil => intro acc _; simp
    | cons x xs ih =>
      intro acc hacc
      have hall : ∀ y ∈ acc, le y x = true := by
        intro y hy
        have := (List.pairwise_append.mp hacc).2.2
        exact this y hy x (by simp)
      have step : insertSorted le x acc = acc ++ [x] := insertSorted_of_all_le hall
      have : (acc ++ [x]) ++ xs = acc ++ x :: xs := by simp
      rw [List.foldl_cons, step, ih (acc ++ [x]) (by rw [this]; exact hacc)]
      simp
  simpa using key l [] (by simpa using h)

/- ## More `addChunk` helpers -/

theorem addChunk_eq_ok_of_le {count : String → Nat} {b : DocumentStringBuilder}
    {f : Fragment} (h : (count f.content : Int) + (b.tokenCount : Int) ≤ b.maxTokens) :
    DocumentStringBuilder.addChunk count b f = Except.ok (commitChunk count b f) := by
  simp only [DocumentStringBuilder.addChunk]
  rw [if_neg (by omega)]

theorem addChunk_eq_error_of_gt {count : String → Nat} {b : DocumentStringBuilder}
    {f : Fragment} (h : (count f.content : Int) + (b.tokenCount : Int) > b.maxTokens) :
    DocumentStringBuilder.addChunk count b f = Except.error b := by
  simp only [DocumentStringBuilder.addChunk]
  rw [if_pos h]

/- ## Claim C1 -/

/-- C1 (counterexample): the claim says `addChunk` overflows whenever
`tokensConsumed` plus the FULL incremental cost (content + first-seen title
+ first-seen header) exceeds `maxTokens`.  With budget 10, a fragment whose
content costs 5 but whose title costs 13 has full incremental cost 18 > 10,
yet the call succeeds: the overflow check uses only the content cost. -/
theorem overflow_check_ignores_title_cex :
    isOverflow (DocumentStringBuilder.addChunk String.length
        (DocumentStringBuilder.init 10) ⟨"d", "0123456789ABC", none, "abcde", 1⟩) = false ∧
    (DocumentStringBuilder.init 10).maxTokens <
      ((DocumentStringBuilder.init 10).tokenCount : Int) + (String.length "abcde" : Int) +
        (String.length "0123456789ABC" : Int) + (String.length (normHeader none) : Int) := by
  decide

/-- C1 (amended): `addChunk` fails with Overflow if and only if
`tokensConsumed + count(content)` exceeds `maxTokens`; the first-seen
document-title and header costs are NOT part of the overflow check (they are
only added to `tokensConsumed` after the fragment is accepted). -/
theorem addChunk_overflow_iff_content_cost (count : String → Nat)
    (b : DocumentStringBuilder) (f : Fragment) :
    isOverflow (DocumentStringBuilder.addChunk count b f) =
      decide ((count f.content : Int) + (b.tokenCount : Int) > b.maxTokens) :=
  isOverflow_addChunk count b f

/- ## Claim C2 -/

/-- C2 (counterexample): the claim says `tokensConsumed` never exceeds
`maxTokens` after a successful ingestion.  With budget 10, a fragment with
content cost 5 and title cost 13 is accepted (only content is checked), and
the resulting `tokenCount` is 18 > 10. -/
theorem tokenCount_exceeds_budget_cex :
    isOverflow (DocumentStringBuilder.addChunk String.length
        (DocumentStringBuilder.init 10) ⟨"d", "0123456789ABC", none, "abcde", 1⟩) = false ∧
    resTokenCount (DocumentStringBuilder.addChunk String.length
        (DocumentStringBuilder.init 10) ⟨"d", "0123456789ABC", none, "abcde", 1⟩) = 18 ∧
    (DocumentStringBuilder.init 10).maxTokens < (18 : Int) := by
  decide

/-- C2 (amended): after a successful `addChunk`, what is bounded by
`maxTokens` is the PREVIOUS `tokensConsumed` plus the fragment's content
cost; the new `tokensConsumed` can exceed `maxTokens`, but only by the
first-seen title and header costs of the accepted fragment. -/
theorem success_tokenCount_bound (count : String → Nat) (b : DocumentStringBuilder)
    (f : Fragment)
    (h : isOverflow (DocumentStringBuilder.addChunk count b f) = false) :
    ((b.tokenCount : Int) + (count f.content : Int) ≤ b.maxTokens) ∧
    resTokenCount (DocumentStringBuilder.addChunk count b f) ≤
      b.tokenCount + count f.content + count f.documentTitle + count (normHeader f.header) := by
  rw [isOverflow_addChunk] at h
  have hle : (count f.content : Int) + (b.tokenCount : Int) ≤ b.maxTokens := by
    simp only [decide_eq_false_iff_not] at h
    omega
  refine ⟨by omega, ?_⟩
  rw [addChunk_eq_ok_of_le hle]
  show (commitChunk count b f).tokenCount ≤ _
  rw [commitChunk_tokenCount]
  have t1 : (if hasKeyA f.documentId b.documents then 0 else count f.documentTitle) ≤
      count f.documentTitle := by split <;> omega
  have t2 : (if hasHeaderKey f.documentId (normHeader f.header) (docsAfterDocInsert b f)
      then 0 else count (normHeader f.header)) ≤ count (normHeader f.header) := by
    split <;> omega
  omega

/-- C2 witness: the amended bound at a concrete accepted ingestion. -/
theorem success_tokenCount_bound_witness :
    (((DocumentStringBuilder.init 10).tokenCount : Int) + (String.length "abcde" : Int) ≤
      (DocumentStringBuilder.init 10).maxTokens) ∧
    resTokenCount (DocumentStringBuilder.addChunk String.length
        (DocumentStringBuilder.init 10) ⟨"d", "0123456789ABC", none, "abcde", 1⟩) ≤
      (DocumentStringBuilder.init 10).tokenCount + String.length "abcde" +
        String.length "0123456789ABC" + String.length (normHeader none) :=
  success_tokenCount_bound String.length (DocumentStringBuilder.init 10)
    ⟨"d", "0123456789ABC", none, "abcde", 1⟩ (by decide)

/- ## Claim C3 -/

/-- C3 (confirmed): when `addChunk` raises `OverflowError`, the builder state
carried out of the call — `tokensConsumed`, the documents with their insert
orders and titles, and every header group and chunk list — is exactly the
state before the call: the overflow test is the first statement of the
method, so no partial commit can have happened. -/
theorem overflow_leaves_state_unchanged (count : String → Nat)
    (b : DocumentStringBuilder) (f : Fragment) (s : DocumentStringBuilder)
    (h : DocumentStringBuilder.addChunk count b f = Except.error s) : s = b :=
  (addChunk_eq_error h).1

/-- C3 witness: a concrete overflowing call (content cost 5, budget 3) whose
raised state equals the pre-call state. -/
theorem overflow_leaves_state_unchanged_witness :
    (DocumentStringBuilder.addChunk String.length (DocumentStringBuilder.init 3)
        ⟨"d", "T", none, "abcde", 1⟩ = Except.error (DocumentStringBuilder.init 3)) ∧
    DocumentStringBuilder.init 3 = DocumentStringBuilder.init 3 :=
  ⟨rfl, overflow_leaves_state_unchanged String.length (DocumentStringBuilder.init 3)
    ⟨"d", "T", none, "abcde", 1⟩ (DocumentStringBuilder.init 3) rfl⟩

/- ## Claim C4 -/

/-- C4 (code_bug): the claim (and the spec) says the canonical "no header"
group is rendered with no header line.  In the source the guard is
`if header != '':` where `header` is the loop variable bound to the
header-group dict (the key string is bound to `throwaway`), so the test is
always true and the no-header group gets a header line consisting of just
`':'`.  Concretely, ingesting one fragment with a `None` header renders the
line `":"` between the title line and the content. -/
theorem noHeader_group_emits_colon_line :
    strLines (ingestList String.length (DocumentStringBuilder.init 100)
      [⟨"d", "T", none, "body", 1⟩]) =
      ["From document \"T\":", ":", "body", ""] := by decide

/- ## Claim C5 -/

/-- C5 (counterexample): the claim says an ellipsis line is emitted between
consecutively rendered fragments exactly when their sequence numbers differ
by something other than 1.  A group with sequence numbers [0, 7] renders
with NO ellipsis: `previousChunkNumber` starts at the sentinel `0`, which a
real chunk number 0 re-arms, so the `previousChunkNumber != 0` conjunct
suppresses the marker after a chunk numbered 0. -/
theorem gap_after_chunkNumber_zero_unmarked_cex :
    strLines (ingestList String.length (DocumentStringBuilder.init 100)
      [⟨"d", "T", none, "a", 0⟩, ⟨"d", "T", none, "b", 7⟩]) =
      ["From document \"T\":", ":", "a", "b", ""] ∧
    ("..." ∈ strLines (ingestList String.length (DocumentStringBuilder.init 100)
      [⟨"d", "T", none, "a", 0⟩, ⟨"d", "T", none, "b", 7⟩]) → False) := by
  decide

/-- C5 (amended): between two consecutively rendered fragments `a` then `b`
of the same header group, the standalone `'...'` line is emitted exactly when
`a`'s sequence number is nonzero AND `b`'s sequence number is not exactly
`a`'s + 1 (the extra nonzero condition comes from the `previousChunkNumber`
sentinel; for groups whose numbers avoid 0 — e.g. [3, 4, 7] — this is the
behaviour the claim describes). -/
theorem chunkLines_gap_marker (prev : Int) (pre post : List Chunk) (a b : Chunk) :
    chunkLines prev (pre ++ a :: b :: post) =
      chunkLines prev (pre ++ [a]) ++
        ((if a.chunkNumber ≠ 0 ∧ b.chunkNumber ≠ a.chunkNumber + 1 then ["..."] else []) ++
          (b.content :: chunkLines b.chunkNumber post)) := by
  induction pre generalizing prev with
  | nil => simp [chunkLines]
  | cons c cs ih => simp [chunkLines, ih]

/- ## Claim C9 -/

/-- C9 (counterexample): the claim says non-positive budgets are rejected at
construction.  The constructor performs no validation: budgets `-5` and `0`
are accepted silently and stored unclamped. -/
theorem init_accepts_nonpositive_cex :
    (DocumentStringBuilder.init (-5)).maxTokens = -5 ∧
    (DocumentStringBuilder.init (-5)).tokenCount = 0 ∧
    (DocumentStringBuilder.init (-5)).documents = [] ∧
    (DocumentStringBuilder.init 0).maxTokens = 0 := by decide

/-- C9 (amended): construction never fails: every integer budget (positive
or not) is accepted unvalidated and unclamped, with `tokensConsumed`
initialized to 0 and no documents.  A negative budget merely produces a
builder on which every `addChunk` call overflows. -/
theorem init_no_validation (m : Int) :
    (DocumentStringBuilder.init m).maxTokens = m ∧
    (DocumentStringBuilder.init m).tokenCount = 0 ∧
    (DocumentStringBuilder.init m).documents = [] ∧
    (m < 0 → ∀ (count : String → Nat) (f : Fragment),
      isOverflow (DocumentStringBuilder.addChunk count (DocumentStringBuilder.init m) f) = true) := by
  refine ⟨rfl, rfl, rfl, ?_⟩
  intro hm count f
  rw [isOverflow_addChunk]
  simp only [DocumentStringBuilder.init, decide_eq_true_eq]
  omega

/-- C9 witness: the amended statement at budget `-5`. -/
theorem init_no_validation_witness :
    (DocumentStringBuilder.init (-5)).maxTokens = -5 ∧
    isOverflow (DocumentStringBuilder.addChunk String.length
      (DocumentStringBuilder.init (-5)) ⟨"d", "T", none, "", 1⟩) = true :=
  ⟨(init_no_validation (-5)).1,
   (init_no_validation (-5)).2.2.2 (by decide) String.length ⟨"d", "T", none, "", 1⟩⟩

/- ## Association-list lemmas -/

theorem lookupA_updateA_self {α : Type} (k : String) (g : α → α)
    (l : List (String × α)) :
    lookupA k (updateA k g l) = (lookupA k l).map g := by
  induction l with
  | nil => rfl
  | cons p rest ih =>
    by_cases h : p.1 = k
    · simp [updateA, lookupA, h]
    · simp [updateA, lookupA, h, ih]

theorem lookupA_updateA_ne {α : Type} {k k' : String} (h : k' ≠ k) (g : α → α)
    (l : List (String × α)) :
    lookupA k' (updateA k g l) = lookupA k' l := by
  induction l with
  | nil => rfl
  | cons p rest ih =>
    by_cases hp : p.1 = k
    · have hpk : p.1 ≠ k' := by rw [hp]; exact Ne.symm h
      simp [updateA, lookupA, hp, hpk, Ne.symm h]
    · simp [updateA, lookupA, hp, ih]

theorem keys_updateA {α : Type} (k : String) (g : α → α) (l : List (String × α)) :
    (updateA k g l).map Prod.fst = l.map Prod.fst := by
  induction l with
  | nil => rfl
  | cons p rest ih =>
    by_cases h : p.1 = k
    · simp [updateA, h]
    · simp [updateA, h, ih]

theorem lookupA_append_none {α : Type} {k : String} {l1 : List (String × α)}
    (h : lookupA k l1 = none) (l2 : List (String × α)) :
    lookupA k (l1 ++ l2) = lookupA k l2 := by
  induction l1 with
  | nil => rfl
  | cons p rest ih =>
    by_cases hp : p.1 = k
    · simp [lookupA, hp] at h
    · simp only [lookupA, hp] at h ⊢
      simp [List.cons_append, lookupA, hp, ih h]

theorem lookupA_append_some {α : Type} {k : String} {l1 : List (String × α)}
    {v : α} (h : lookupA k l1 = some v) (l2 : List (String × α)) :
    lookupA k (l1 ++ l2) = some v := by
  induction l1 with
  | nil => simp [lookupA] at h
  | cons p rest ih =>
    by_cases hp : p.1 = k
    · simp only [lookupA, hp, if_pos] at h ⊢
      simpa using h
    · simp only [lookupA, hp] at h ⊢
      simp [List.cons_append, lookupA, hp, ih h]

theorem lookupA_eq_none_iff {α : Type} {k : String} {l : List (String × α)} :
    lookupA k l = none ↔ k ∉ l.map Prod.fst := by
  induction l with
  | nil => simp [lookupA]
  | cons p rest ih =>
    by_cases hp : p.1 = k
    · simp [lookupA, hp]
    · have hstep : lookupA k (p :: rest) = lookupA k rest := by
        simp [lookupA, hp]
      rw [hstep, ih, List.map_cons, List.mem_cons]
      constructor
      · exact fun hn hor => hor.elim (fun hh => hp hh.symm) hn
      · exact fun hn hmem => hn (Or.inr hmem)

theorem hasKeyA_iff_mem {α : Type} {k : String} {l : List (String × α)} :
    hasKeyA k l = true ↔ k ∈ l.map Prod.fst := by
  unfold hasKeyA
  rw [Option.isSome_iff_ne_none]
  constructor
  · intro h
    by_contra hmem
    exact h (lookupA_eq_none_iff.mpr hmem)
  · intro hmem hnone
    exact (lookupA_eq_none_iff.mp hnone) hmem

theorem hasKeyA_false_iff {α : Type} {k : String} {l : List (String × α)} :
    hasKeyA k l = false ↔ k ∉ l.map Prod.fst := by
  rw [← Bool.not_eq_true, not_iff_not]
  exact hasKeyA_iff_mem

theorem lookupA_isSome_of_hasKey {α : Type} {k : String} {l : List (String × α)}
    (h : hasKeyA k l = true) : ∃ v, lookupA k l = some v := by
  unfold hasKeyA at h
  exact Option.isSome_iff_exists.mp h

theorem lookupA_mem {α : Type} {k : String} {l : List (String × α)} {v : α}
    (h : lookupA k l = some v) : (k, v) ∈ l := by
  induction l with
  | nil => simp [lookupA] at h
  | cons p rest ih =>
    obtain ⟨p1, p2⟩ := p
    by_cases hp : p1 = k
    · subst hp
      have h2 : p2 = v := Option.some.inj (by simpa [lookupA] using h)
      subst h2
      exact List.mem_cons_self _ _
    · have h2 : lookupA k rest = some v := by simpa [lookupA, hp] using h
      exact List.mem_cons_of_mem _ (ih h2)

theorem lookupA_of_mem_nodup {α : Type} {k : String} {l : List (String × α)} {v : α}
    (hnd : (l.map Prod.fst).Nodup) (hmem : (k, v) ∈ l) : lookupA k l = some v := by
  induction l with
  | nil => simp at hmem
  | cons p rest ih =>
    have hnd' : p.1 ∉ rest.map Prod.fst ∧ (rest.map Prod.fst).Nodup := by
      rw [List.map_cons, List.nodup_cons] at hnd
      exact hnd
    rcases List.mem_cons.mp hmem with h | h
    · rw [← h]
      simp [lookupA]
    · have hk : k ∈ rest.map Prod.fst := List.mem_map.mpr ⟨(k, v), h, rfl⟩
      have hp : p.1 ≠ k := fun hh => hnd'.1 (hh ▸ hk)
      have hstep : lookupA k (p :: rest) = lookupA k rest := by
        simp [lookupA, hp]
      rw [hstep]
      exact ih hnd'.2 h

/- ## Characterization of one committed ingestion -/

theorem bool_eq_false {x : Bool} (h : ¬ x = true) : x = false := by
  cases x
  · rfl
  · exact absurd rfl h

theorem length_updateA {α : Type} (k : String) (g : α → α) (l : List (String × α)) :
    (updateA k g l).length = l.length := by
  have h := congrArg List.length (keys_updateA k g l)
  simpa using h

theorem addChunkToDoc_keys (hdr : String) (c : Chunk) (e : DocEntry) :
    (addChunkToDoc hdr c e).headers.map Prod.fst =
      if hasKeyA hdr e.headers then e.headers.map Prod.fst
      else e.headers.map Prod.fst ++ [hdr] := by
  simp only [addChunkToDoc]
  rw [keys_updateA]
  split
  · rfl
  · simp

theorem addChunkToDoc_entryChunks_self (hdr : String) (c : Chunk) (e : DocEntry) :
    entryChunks (addChunkToDoc hdr c e) hdr = entryChunks e hdr ++ [c] := by
  unfold entryChunks
  simp only [addChunkToDoc]
  rw [lookupA_updateA_self]
  by_cases h : hasKeyA hdr e.headers
  · rw [if_pos h]
    obtain ⟨g, hg⟩ := lookupA_isSome_of_hasKey h
    rw [hg]
    rfl
  · rw [if_neg h]
    have hnone : lookupA hdr e.headers = none := by
      unfold hasKeyA at h
      exact Option.not_isSome_iff_eq_none.mp h
    rw [lookupA_append_none hnone, hnone]
    simp [lookupA]

theorem addChunkToDoc_entryChunks_ne {hdr2 hdr : String} (h : hdr2 ≠ hdr)
    (c : Chunk) (e : DocEntry) :
    entryChunks (addChunkToDoc hdr c e) hdr2 = entryChunks e hdr2 := by
  unfold entryChunks
  simp only [addChunkToDoc]
  rw [lookupA_updateA_ne h]
  by_cases hk : hasKeyA hdr e.headers
  · rw [if_pos hk]
  · rw [if_neg hk]
    cases hcase : lookupA hdr2 e.headers with
    | some g => rw [lookupA_append_some hcase]
    | none =>
      rw [lookupA_append_none hcase]
      simp [lookupA, Ne.symm h]

theorem addChunkToDoc_hasKey (hdr2 hdr : String) (c : Chunk) (e : DocEntry) :
    hasKeyA hdr2 (addChunkToDoc hdr c e).headers = true ↔
      (hasKeyA hdr2 e.headers = true ∨ hdr2 = hdr) := by
  rw [hasKeyA_iff_mem, hasKeyA_iff_mem, addChunkToDoc_keys]
  split
  · next hk =>
    constructor
    · exact Or.inl
    · rintro (h | h)
      · exact h
      · subst h
        exact hasKeyA_iff_mem.mp hk
  · next hk =>
    simp [List.mem_append]

theorem addChunkToDoc_headers_nodup {hdr : String} {c : Chunk} {e : DocEntry}
    (h : (e.headers.map Prod.fst).Nodup) :
    ((addChunkToDoc hdr c e).headers.map Prod.fst).Nodup := by
  rw [addChunkToDoc_keys]
  split
  · exact h
  · next hk =>
    have hmem : hdr ∉ e.headers.map Prod.fst :=
      hasKeyA_false_iff.mp (bool_eq_false hk)
    refine List.nodup_append.mpr ⟨h, List.nodup_singleton hdr, ?_⟩
    intro a ha hb
    rw [List.mem_singleton.mp hb] at ha
    exact hmem ha

theorem docsAfterDocInsert_lookup_of_some {b : DocumentStringBuilder}
    {f : Fragment} {e : DocEntry} (h : lookupA f.documentId b.documents = some e) :
    lookupA f.documentId (docsAfterDocInsert b f) = some e := by
  unfold docsAfterDocInsert
  rw [if_pos (by unfold hasKeyA; rw [h]; rfl)]
  exact h

theorem docsAfterDocInsert_lookup_of_none {b : DocumentStringBuilder}
    {f : Fragment} (h : lookupA f.documentId b.documents = none) :
    lookupA f.documentId (docsAfterDocInsert b f) =
      some { documentTitle := f.documentTitle,
             insertOrder := b.documents.length, headers := [] } := by
  unfold docsAfterDocInsert
  rw [if_neg (by unfold hasKeyA; rw [h]; simp)]
  rw [lookupA_append_none h]
  simp [lookupA]

theorem docsAfterDocInsert_lookup_ne {b : DocumentStringBuilder} {f : Fragment}
    {d : String} (hne : d ≠ f.documentId) :
    lookupA d (docsAfterDocInsert b f) = lookupA d b.documents := by
  unfold docsAfterDocInsert
  split
  · rfl
  · cases hcase : lookupA d b.documents with
    | some e => rw [lookupA_append_some hcase]
    | none =>
      rw [lookupA_append_none hcase]
      simp [lookupA, Ne.symm hne]

theorem docsAfterDocInsert_keys (b : DocumentStringBuilder) (f : Fragment) :
    (docsAfterDocInsert b f).map Prod.fst = seenInsert f.documentId (docKeys b) := by
  unfold docsAfterDocInsert seenInsert docKeys
  cases hk : hasKeyA f.documentId b.documents with
  | true =>
    have hmem := hasKeyA_iff_mem.mp hk
    simp [hmem]
  | false =>
    have hmem := hasKeyA_false_iff.mp hk
    simp [hmem]

theorem docsAfterDocInsert_entries_nodup {b : DocumentStringBuilder} {f : Fragment}
    (hh : ∀ p ∈ b.documents, (p.2.headers.map Prod.fst).Nodup) :
    ∀ p ∈ docsAfterDocInsert b f, (p.2.headers.map Prod.fst).Nodup := by
  intro p hp
  unfold docsAfterDocInsert at hp
  split at hp
  · exact hh p hp
  · rcases List.mem_append.mp hp with h1 | h1
    · exact hh p h1
    · rw [List.mem_singleton.mp h1]
      simp

theorem commitChunk_docKeys (count : String → Nat) (b : DocumentStringBuilder)
    (f : Fragment) :
    docKeys (commitChunk count b f) = seenInsert f.documentId (docKeys b) := by
  unfold docKeys
  simp only [commitChunk]
  rw [keys_updateA, docsAfterDocInsert_keys]
  rfl

theorem insertOrders_updateA (k hdr : String) (c : Chunk)
    (l : List (String × DocEntry)) :
    (updateA k (addChunkToDoc hdr c) l).map (fun p => p.2.insertOrder) =
      l.map (fun p => p.2.insertOrder) := by
  induction l with
  | nil => rfl
  | cons p rest ih =>
    by_cases h : p.1 = k
    · simp [updateA, h, addChunkToDoc]
    · simp [updateA, h, ih]

theorem commitChunk_insertOrders (count : String → Nat) (b : DocumentStringBuilder)
    (f : Fragment) :
    insertOrders (commitChunk count b f) =
      if hasKeyA f.documentId b.documents then insertOrders b
      else insertOrders b ++ [b.documents.length] := by
  unfold insertOrders
  simp only [commitChunk]
  rw [insertOrders_updateA]
  unfold docsAfterDocInsert
  split
  · rfl
  · simp

theorem commitChunk_documents_length (count : String → Nat)
    (b : DocumentStringBuilder) (f : Fragment) :
    (commitChunk count b f).documents.length =
      if hasKeyA f.documentId b.documents then b.documents.length
      else b.documents.length + 1 := by
  simp only [commitChunk]
  rw [length_updateA]
  unfold docsAfterDocInsert
  split
  · rfl
  · simp

theorem commitChunk_OrdersOk {count : String → Nat} {b : DocumentStringBuilder}
    {f : Fragment} (h : OrdersOk b) : OrdersOk (commitChunk count b f) := by
  unfold OrdersOk at h ⊢
  rw [commitChunk_insertOrders, commitChunk_documents_length]
  by_cases hk : hasKeyA f.documentId b.documents = true
  · rw [if_pos hk, if_pos hk]
    exact h
  · rw [if_neg hk, if_neg hk, h, List.range_succ]

theorem hasHeaderKey_docsAfterDocInsert (b : DocumentStringBuilder) (f : Fragment)
    (hdr : String) :
    hasHeaderKey f.documentId hdr (docsAfterDocInsert b f) =
      hasGroupB b f.documentId hdr := by
  unfold hasGroupB hasHeaderKey
  cases hcase : lookupA f.documentId b.documents with
  | some e => rw [docsAfterDocInsert_lookup_of_some hcase]
  | none =>
    rw [docsAfterDocInsert_lookup_of_none hcase]
    simp [hasKeyA, lookupA]

theorem commitChunk_tokenCount2 (count : String → Nat) (b : DocumentStringBuilder)
    (f : Fragment) :
    (commitChunk count b f).tokenCount =
      b.tokenCount
      + (if hasKeyA f.documentId b.documents then 0 else count f.documentTitle)
      + (if hasGroupB b f.documentId (normHeader f.header) then 0
          else count (normHeader f.header))
      + count f.content := by
  rw [commitChunk_tokenCount, hasHeaderKey_docsAfterDocInsert]

theorem commitChunk_groupChunks_self (count : String → Nat)
    (b : DocumentStringBuilder) (f : Fragment) :
    groupChunks (commitChunk count b f) f.documentId (normHeader f.header) =
      groupChunks b f.documentId (normHeader f.header) ++
        [{ content := f.content, chunkNumber := f.chunkNumber }] := by
  unfold groupChunks
  simp only [commitChunk]
  rw [lookupA_updateA_self]
  cases hcase : lookupA f.documentId b.documents with
  | some e =>
    rw [docsAfterDocInsert_lookup_of_some hcase]
    simpa using addChunkToDoc_entryChunks_self (normHeader f.header) _ e
  | none =>
    rw [docsAfterDocInsert_lookup_of_none hcase]
    have h := addChunkToDoc_entryChunks_self (normHeader f.header)
      { content := f.content, chunkNumber := f.chunkNumber }
      { documentTitle := f.documentTitle, insertOrder := b.documents.length,
        headers := [] }
    simpa [entryChunks, lookupA] using h

theorem commitChunk_groupChunks_ne (count : String → Nat)
    (b : DocumentStringBuilder) (f : Fragment) (d hdr : String)
    (h : ¬ (d = f.documentId ∧ hdr = normHeader f.header)) :
    groupChunks (commitChunk count b f) d hdr = groupChunks b d hdr := by
  unfold groupChunks
  simp only [commitChunk]
  by_cases hd : d = f.documentId
  · subst hd
    have hh : hdr ≠ normHeader f.header := fun hh => h ⟨rfl, hh⟩
    rw [lookupA_updateA_self]
    cases hcase : lookupA f.documentId b.documents with
    | some e =>
      rw [docsAfterDocInsert_lookup_of_some hcase]
      simpa using addChunkToDoc_entryChunks_ne hh _ e
    | none =>
      rw [docsAfterDocInsert_lookup_of_none hcase]
      have h2 := addChunkToDoc_entryChunks_ne hh
        { content := f.content, chunkNumber := f.chunkNumber }
        { documentTitle := f.documentTitle, insertOrder := b.documents.length,
          headers := [] }
      simpa [entryChunks, lookupA] using h2
  · rw [lookupA_updateA_ne hd, docsAfterDocInsert_lookup_ne hd]

theorem commitChunk_hasKey (count : String → Nat) (b : DocumentStringBuilder)
    (f : Fragment) (d : String) :
    hasKeyA d (commitChunk count b f).documents = true ↔
      (hasKeyA d b.documents = true ∨ d = f.documentId) := by
  rw [hasKeyA_iff_mem, hasKeyA_iff_mem]
  simp only [commitChunk]
  rw [keys_updateA, docsAfterDocInsert_keys]
  unfold seenInsert docKeys
  by_cases hmem : f.documentId ∈ b.documents.map Prod.fst
  · rw [if_pos hmem]
    constructor
    · exact Or.inl
    · rintro (h | h)
      · exact h
      · rw [h]
        exact hmem
  · rw [if_neg hmem]
    simp [List.mem_append]

theorem commitChunk_hasGroup (count : String → Nat) (b : DocumentStringBuilder)
    (f : Fragment) (d hdr : String) :
    hasGroupB (commitChunk count b f) d hdr = true ↔
      (hasGroupB b d hdr = true ∨ (d = f.documentId ∧ hdr = normHeader f.header)) := by
  unfold hasGroupB hasHeaderKey
  simp only [commitChunk]
  by_cases hd : d = f.documentId
  · subst hd
    rw [lookupA_updateA_self]
    cases hcase : lookupA f.documentId b.documents with
    | some e =>
      rw [docsAfterDocInsert_lookup_of_some hcase]
      have h2 := addChunkToDoc_hasKey hdr (normHeader f.header)
        { content := f.content, chunkNumber := f.chunkNumber } e
      simp only [Option.map_some']
      rw [h2]
      simp
    | none =>
      rw [docsAfterDocInsert_lookup_of_none hcase]
      have h2 := addChunkToDoc_hasKey hdr (normHeader f.header)
        { content := f.content, chunkNumber := f.chunkNumber }
        { documentTitle := f.documentTitle, insertOrder := b.documents.length,
          headers := [] }
      simp only [Option.map_some']
      rw [h2]
      simp [hasKeyA, lookupA]
  · rw [lookupA_updateA_ne hd, docsAfterDocInsert_lookup_ne hd]
    have : ¬ (d = f.documentId ∧ hdr = normHeader f.header) := fun hh => hd hh.1
    simp [this]

theorem commitChunk_ghc (count : String → Nat) (b : DocumentStringBuilder)
    (f : Fragment) (d hdr : String) :
    groupHeadChunk (commitChunk count b f) d hdr =
      if d = f.documentId ∧ hdr = normHeader f.header ∧ groupHeadChunk b d hdr = none
      then some { content := f.content, chunkNumber := f.chunkNumber }
      else groupHeadChunk b d hdr := by
  unfold groupHeadChunk
  by_cases hmatch : d = f.documentId ∧ hdr = normHeader f.header
  · obtain ⟨h1, h2⟩ := hmatch
    subst h1
    subst h2
    rw [commitChunk_groupChunks_self]
    cases hgc : groupChunks b f.documentId (normHeader f.header) with
    | nil => simp [hgc]
    | cons x xs => simp [hgc]
  · rw [commitChunk_groupChunks_ne count b f d hdr hmatch]
    rw [if_neg (by tauto)]

theorem mem_updateA {α : Type} {k : String} {g : α → α} {l : List (String × α)}
    {p : String × α} (h : p ∈ updateA k g l) :
    p ∈ l ∨ ∃ q ∈ l, q.1 = k ∧ p = (q.1, g q.2) := by
  induction l with
  | nil => simp [updateA] at h
  | cons r rest ih =>
    by_cases hr : r.1 = k
    · rw [updateA, if_pos hr] at h
      rcases List.mem_cons.mp h with h1 | h1
      · exact Or.inr ⟨r, List.mem_cons_self _ _, hr, h1⟩
      · exact Or.inl (List.mem_cons_of_mem _ h1)
    · rw [updateA, if_neg hr] at h
      rcases List.mem_cons.mp h with h1 | h1
      · exact Or.inl (h1 ▸ List.mem_cons_self _ _)
      · rcases ih h1 with h2 | ⟨q, hq, hqk, hpq⟩
        · exact Or.inl (List.mem_cons_of_mem _ h2)
        · exact Or.inr ⟨q, List.mem_cons_of_mem _ hq, hqk, hpq⟩

theorem seenInsert_nodup {x : String} {l : List String} (h : l.Nodup) :
    (seenInsert x l).Nodup := by
  unfold seenInsert
  split
  · exact h
  · next hx =>
    refine List.nodup_append.mpr ⟨h, List.nodup_singleton x, ?_⟩
    intro a ha hb
    rw [List.mem_singleton.mp hb] at ha
    exact hx ha

theorem commitChunk_WFb {count : String → Nat} {b : DocumentStringBuilder}
    {f : Fragment} (h : WFb b) : WFb (commitChunk count b f) := by
  obtain ⟨hkeys, hhdrs⟩ := h
  constructor
  · rw [commitChunk_docKeys]
    exact seenInsert_nodup hkeys
  · intro p hp
    have hdocs1 := docsAfterDocInsert_entries_nodup (b := b) (f := f) hhdrs
    simp only [commitChunk] at hp
    rcases mem_updateA hp with h1 | ⟨q, hq, _, hpq⟩
    · exact hdocs1 p h1
    · rw [hpq]
      exact addChunkToDoc_headers_nodup (hdocs1 q hq)

/- ## Sequence-level lemmas (ingestion loops) -/

theorem allAccepted_cons {count : String → Nat} {b : DocumentStringBuilder}
    {f : Fragment} {rest : List Fragment}
    (h : allAcceptedB count b (f :: rest) = true) :
    DocumentStringBuilder.addChunk count b f = Except.ok (commitChunk count b f) ∧
      allAcceptedB count (commitChunk count b f) rest = true := by
  unfold allAcceptedB at h
  cases hc : DocumentStringBuilder.addChunk count b f with
  | error s =>
    rw [hc] at h
    simp at h
  | ok b1 =>
    have hb1 := (addChunk_eq_ok hc).1
    rw [hc] at h
    simp only at h
    rw [hb1] at h
    exact ⟨congrArg Except.ok hb1, h⟩

theorem ingestList_cons_ok {count : String → Nat} {b b1 : DocumentStringBuilder}
    {f : Fragment} (rest : List Fragment)
    (hc : DocumentStringBuilder.addChunk count b f = Except.ok b1) :
    ingestList count b (f :: rest) = ingestList count b1 rest := by
  simp only [ingestList, hc]

theorem ingestList_cons_error {count : String → Nat} {b s : DocumentStringBuilder}
    {f : Fragment} (rest : List Fragment)
    (hc : DocumentStringBuilder.addChunk count b f = Except.error s) :
    ingestList count b (f :: rest) = b := by
  simp only [ingestList, hc]

theorem ingest_docKeys (count : String → Nat) (fs : List Fragment) :
    ∀ b, allAcceptedB count b fs = true →
      docKeys (ingestList count b fs) =
        List.foldl (fun acc x => seenInsert x acc) (docKeys b)
          (fs.map Fragment.documentId) := by
  induction fs with
  | nil => intro b _; rfl
  | cons f rest ih =>
    intro b hacc
    obtain ⟨hok, hrest⟩ := allAccepted_cons hacc
    rw [ingestList_cons_ok rest hok, ih _ hrest, commitChunk_docKeys,
      List.map_cons, List.foldl_cons]

theorem ingest_OrdersOk (count : String → Nat) (fs : List Fragment) :
    ∀ b, OrdersOk b → OrdersOk (ingestList count b fs) := by
  induction fs with
  | nil => intro b h; exact h
  | cons f rest ih =>
    intro b h
    cases hc : DocumentStringBuilder.addChunk count b f with
    | error s =>
      rw [ingestList_cons_error rest hc]
      exact h
    | ok b1 =>
      rw [ingestList_cons_ok rest hc, (addChunk_eq_ok hc).1]
      exact ih _ (commitChunk_OrdersOk h)

theorem ingest_WFb (count : String → Nat) (fs : List Fragment) :
    ∀ b, WFb b → WFb (ingestList count b fs) := by
  induction fs with
  | nil => intro b h; exact h
  | cons f rest ih =>
    intro b h
    cases hc : DocumentStringBuilder.addChunk count b f with
    | error s =>
      rw [ingestList_cons_error rest hc]
      exact h
    | ok b1 =>
      rw [ingestList_cons_ok rest hc, (addChunk_eq_ok hc).1]
      exact ih _ (commitChunk_WFb h)

theorem optOr_none_right {α : Type} (o : Option α) : optOr o none = o := by
  cases o <;> rfl

theorem ingest_ghc (count : String → Nat) (fs : List Fragment) :
    ∀ b, allAcceptedB count b fs = true → ∀ d hdr,
      groupHeadChunk (ingestList count b fs) d hdr =
        optOr (groupHeadChunk b d hdr)
          ((fs.find? (fragMatches d hdr)).map
            (fun f => { content := f.content, chunkNumber := f.chunkNumber })) := by
  induction fs with
  | nil =>
    intro b _ d hdr
    simp [ingestList, List.find?, optOr_none_right]
  | cons f rest ih =>
    intro b hacc d hdr
    obtain ⟨hok, hrest⟩ := allAccepted_cons hacc
    rw [ingestList_cons_ok rest hok, ih _ hrest d hdr, commitChunk_ghc]
    by_cases hm : fragMatches d hdr f = true
    · have hd : f.documentId = d ∧ normHeader f.header = hdr := by
        simpa [fragMatches, Bool.and_eq_true, beq_iff_eq] using hm
      rw [List.find?_cons_of_pos _ hm]
      by_cases hnone : groupHeadChunk b d hdr = none
      · rw [if_pos ⟨hd.1.symm, hd.2.symm, hnone⟩, hnone]
        simp [optOr]
      · rw [if_neg (fun hh => hnone hh.2.2)]
        obtain ⟨c, hc⟩ := Option.ne_none_iff_exists'.mp hnone
        rw [hc]
        simp [optOr]
    · rw [List.find?_cons_of_neg _ hm]
      have hcond : ¬ (d = f.documentId ∧ hdr = normHeader f.header ∧
          groupHeadChunk b d hdr = none) := by
        rintro ⟨h1, h2, _⟩
        apply hm
        simp [fragMatches, h1, h2]
      rw [if_neg hcond]

/- ## Lemmas for the first-seen document order (claim C6) -/

theorem mem_seenInsert {y x : String} {l : List String} :
    y ∈ seenInsert x l ↔ y ∈ l ∨ y = x := by
  unfold seenInsert
  split
  · next hx =>
    constructor
    · exact Or.inl
    · rintro (h | h)
      · exact h
      · rw [h]
        exact hx
  · simp [List.mem_append]

theorem mem_foldl_seenInsert {y : String} (l : List String) :
    ∀ acc, (y ∈ List.foldl (fun acc x => seenInsert x acc) acc l ↔
      y ∈ acc ∨ y ∈ l) := by
  induction l with
  | nil => intro acc; simp
  | cons x xs ih =>
    intro acc
    rw [List.foldl_cons, ih, mem_seenInsert]
    simp only [List.mem_cons]
    tauto

theorem foldl_seenInsert_prefix (l : List String) :
    ∀ acc, ∃ t, List.foldl (fun acc x => seenInsert x acc) acc l = acc ++ t := by
  induction l with
  | nil => intro acc; exact ⟨[], by simp⟩
  | cons x xs ih =>
    intro acc
    rcases ih (seenInsert x acc) with ⟨t, ht⟩
    by_cases hx : x ∈ acc
    · refine ⟨t, ?_⟩
      rw [List.foldl_cons, ht]
      unfold seenInsert
      rw [if_pos hx]
    · refine ⟨x :: t, ?_⟩
      rw [List.foldl_cons, ht]
      unfold seenInsert
      rw [if_neg hx]
      simp

theorem posOf_lt_length {x : String} {l : List String} (h : x ∈ l) :
    posOf x l < l.length := by
  induction l with
  | nil => simp at h
  | cons y ys ih =>
    unfold posOf
    split
    · simp
    · next hy =>
      have h1 : x ∈ ys := by
        rcases List.mem_cons.mp h with hh | hh
        · exact absurd hh.symm hy
        · exact hh
      simpa using Nat.succ_lt_succ (ih h1)

theorem posOf_append_left {x : String} {l1 : List String} (h : x ∈ l1)
    (l2 : List String) : posOf x (l1 ++ l2) = posOf x l1 := by
  induction l1 with
  | nil => simp at h
  | cons y ys ih =>
    rw [List.cons_append]
    unfold posOf
    by_cases hy : y = x
    · rw [if_pos hy, if_pos hy]
    · have h1 : x ∈ ys := by
        rcases List.mem_cons.mp h with hh | hh
        · exact absurd hh.symm hy
        · exact hh
      rw [if_neg hy, if_neg hy, ih h1]

theorem posOf_append_right {x : String} {l1 : List String} (h : x ∉ l1)
    (l2 : List String) : posOf x (l1 ++ l2) = l1.length + posOf x l2 := by
  induction l1 with
  | nil => simp
  | cons y ys ih =>
    rw [List.cons_append]
    have hy : y ≠ x := fun hh => h (by rw [hh]; exact List.mem_cons_self _ _)
    have h1 : x ∉ ys := fun hh => h (List.mem_cons_of_mem _ hh)
    rw [show posOf x (y :: (ys ++ l2)) =
        if y = x then 0 else posOf x (ys ++ l2) + 1 from rfl]
    rw [if_neg hy, ih h1, List.length_cons]
    omega

theorem sortDocs_of_OrdersOk {b : DocumentStringBuilder} (h : OrdersOk b) :
    sortDocs b.documents = b.documents := by
  unfold sortDocs
  apply stableSortBy_of_pairwise
  have hpair : (insertOrders b).Pairwise (· ≤ ·) := by
    rw [h]
    exact List.pairwise_le_range _
  unfold insertOrders at hpair
  rw [List.pairwise_map] at hpair
  exact hpair.imp (fun hab => by simpa using hab)

theorem renderDocOrder_of_OrdersOk {b : DocumentStringBuilder} (h : OrdersOk b) :
    renderDocOrder b = docKeys b := by
  unfold renderDocOrder docKeys
  rw [sortDocs_of_OrdersOk h]

/- ## Claim C6 -/

/-- C6 (confirmed): documents are rendered in first-seen order.  For any
ingestion sequence `l1 ++ fA :: l2 ++ fB :: l3` in which every call succeeds
and in which document B's first fragment (`fB`) arrives only after document
A's fragment `fA`, the renderer iterates A's documentId strictly before B's
— regardless of documentId values, titles, or how the later fragments of the
two documents interleave. -/
theorem rendered_docs_in_first_seen_order
    (count : String → Nat) (m : Int) (l1 l2 l3 : List Fragment) (fA fB : Fragment)
    (hacc : allAcceptedB count (DocumentStringBuilder.init m)
      (l1 ++ fA :: l2 ++ fB :: l3) = true)
    (hB : fB.documentId ∉ (l1 ++ fA :: l2).map Fragment.documentId) :
    posOf fA.documentId (renderDocOrder (ingestList count
        (DocumentStringBuilder.init m) (l1 ++ fA :: l2 ++ fB :: l3))) <
      posOf fB.documentId (renderDocOrder (ingestList count
        (DocumentStringBuilder.init m) (l1 ++ fA :: l2 ++ fB :: l3))) := by
  have hord0 : OrdersOk (DocumentStringBuilder.init m) := by
    unfold OrdersOk insertOrders DocumentStringBuilder.init
    simp
  have hride : renderDocOrder (ingestList count (DocumentStringBuilder.init m)
      (l1 ++ fA :: l2 ++ fB :: l3)) = docKeys (ingestList count
      (DocumentStringBuilder.init m) (l1 ++ fA :: l2 ++ fB :: l3)) :=
    renderDocOrder_of_OrdersOk (ingest_OrdersOk count _ _ hord0)
  rw [hride]
  rw [ingest_docKeys count _ _ hacc]
  have hinit : docKeys (DocumentStringBuilder.init m) = [] := rfl
  rw [hinit]
  rw [List.map_append, List.map_cons, List.map_append, List.map_cons]
  rw [List.foldl_append, List.foldl_cons, List.foldl_append, List.foldl_cons]
  set dA := fA.documentId with hdA
  set dB := fB.documentId with hdB
  set l1m := l1.map Fragment.documentId with hl1m
  set l2m := l2.map Fragment.documentId with hl2m
  set l3m := l3.map Fragment.documentId with hl3m
  set acc1 := List.foldl (fun acc x => seenInsert x acc) [] l1m with hacc1
  set acc3 := List.foldl (fun acc x => seenInsert x acc) (seenInsert dA acc1) l2m
    with hacc3
  have hBl : dB ∉ l1m ∧ dB ≠ dA ∧ dB ∉ l2m := by
    rw [List.map_append, List.map_cons] at hB
    simp only [List.mem_append, List.mem_cons] at hB
    push_neg at hB
    exact ⟨hB.1, hB.2.1, hB.2.2⟩
  have hdA3 : dA ∈ acc3 := by
    rw [hacc3, mem_foldl_seenInsert]
    exact Or.inl (mem_seenInsert.mpr (Or.inr rfl))
  have hdB3 : dB ∉ acc3 := by
    rw [hacc3, mem_foldl_seenInsert, mem_seenInsert]
    rintro ((h | h) | h)
    · rw [hacc1, mem_foldl_seenInsert] at h
      rcases h with h | h
      · simp at h
      · exact hBl.1 h
    · exact hBl.2.1 h
    · exact hBl.2.2 h
  have hacc4 : seenInsert dB acc3 = acc3 ++ [dB] := by
    unfold seenInsert
    rw [if_neg hdB3]
  rw [hacc4]
  rcases foldl_seenInsert_prefix l3m (acc3 ++ [dB]) with ⟨t, ht⟩
  rw [ht, List.append_assoc]
  rw [posOf_append_left hdA3, posOf_append_right hdB3]
  have hlt := posOf_lt_length hdA3
  omega

/-- C6 witness: with documents first seen in the order "a", "b", the
renderer iterates "a" before "b". -/
theorem rendered_docs_in_first_seen_order_witness :
    posOf "a" (renderDocOrder (ingestList String.length
        (DocumentStringBuilder.init 100)
        ([] ++ (⟨"a", "TA", none, "x", 0⟩ : Fragment) ::
          ([] ++ (⟨"b", "TB", none, "y", 0⟩ : Fragment) :: [])))) <
      posOf "b" (renderDocOrder (ingestList String.length
        (DocumentStringBuilder.init 100)
        ([] ++ (⟨"a", "TA", none, "x", 0⟩ : Fragment) ::
          ([] ++ (⟨"b", "TB", none, "y", 0⟩ : Fragment) :: [])))) :=
  rendered_docs_in_first_seen_order String.length 100 [] [] []
    ⟨"a", "TA", none, "x", 0⟩ ⟨"b", "TB", none, "y", 0⟩ (by decide) (by decide)

/- ## Claim C7 -/

/-- C7 (confirmed): within each rendered document, header groups are
iterated in ascending order of the sequence number of each group's
FIRST-ARRIVING fragment (the fragment first ingested into that group), as
recorded at the head of the group's chunk list — not the group's lowest
sequence number, not header insertion order, not alphabetical order.  For
any all-accepted ingestion sequence `fs` and any document entry `(d, e)` of
the resulting builder: the render-time sort key of each group equals the
chunk number of the first fragment of `fs` ingested into that group, and the
groups are iterated pairwise-sorted by that key. -/
theorem rendered_headers_by_first_arrival
    (count : String → Nat) (m : Int) (fs : List Fragment) (d : String) (e : DocEntry)
    (hacc : allAcceptedB count (DocumentStringBuilder.init m) fs = true)
    (hmem : (d, e) ∈ (ingestList count (DocumentStringBuilder.init m) fs).documents) :
    (∀ p ∈ e.headers, firstChunkNumber p.2 = firstArrivalNum fs d p.1) ∧
      (sortHeaders e.headers).Pairwise
        (fun p q => firstArrivalNum fs d p.1 ≤ firstArrivalNum fs d q.1) := by
  have hWF : WFb (ingestList count (DocumentStringBuilder.init m) fs) := by
    refine ingest_WFb count fs _ ⟨?_, ?_⟩
    · simp [docKeys, DocumentStringBuilder.init]
    · simp [DocumentStringBuilder.init]
  have hlook : lookupA d
      (ingestList count (DocumentStringBuilder.init m) fs).documents = some e :=
    lookupA_of_mem_nodup hWF.1 hmem
  have hident : ∀ p ∈ e.headers, firstChunkNumber p.2 = firstArrivalNum fs d p.1 := by
    intro p hp
    have hnd : (e.headers.map Prod.fst).Nodup := hWF.2 (d, e) hmem
    obtain ⟨hdr, g⟩ := p
    have hlookH : lookupA hdr e.headers = some g := lookupA_of_mem_nodup hnd hp
    have hgc : groupChunks (ingestList count (DocumentStringBuilder.init m) fs)
        d hdr = g.chunks := by
      simp [groupChunks, entryChunks, hlook, hlookH]
    have hghc := ingest_ghc count fs _ hacc d hdr
    have hinit : groupHeadChunk (DocumentStringBuilder.init m) d hdr = none := rfl
    rw [hinit] at hghc
    have hghc2 : g.chunks.head? =
        (fs.find? (fragMatches d hdr)).map
          (fun f => ({ content := f.content, chunkNumber := f.chunkNumber } : Chunk)) := by
      have h2 : groupHeadChunk (ingestList count (DocumentStringBuilder.init m) fs)
          d hdr = (fs.find? (fragMatches d hdr)).map
            (fun f => ({ content := f.content, chunkNumber := f.chunkNumber } : Chunk)) := by
        rw [hghc]
        rfl
      unfold groupHeadChunk at h2
      rw [hgc] at h2
      exact h2
    simp only
    unfold firstChunkNumber firstArrivalNum
    cases hchunks : g.chunks with
    | nil =>
      rw [hchunks] at hghc2
      cases hfind : fs.find? (fragMatches d hdr) with
      | none => rfl
      | some f0 =>
        rw [hfind] at hghc2
        simp at hghc2
    | cons c cs =>
      rw [hchunks] at hghc2
      cases hfind : fs.find? (fragMatches d hdr) with
      | none =>
        rw [hfind] at hghc2
        simp at hghc2
      | some f0 =>
        rw [hfind] at hghc2
        simp only [List.head?_cons, Option.map_some'] at hghc2
        rw [Option.some.inj hghc2]
  refine ⟨hident, ?_⟩
  have htrans : ∀ a b c : String × HeaderGroup,
      (decide (firstChunkNumber a.2 ≤ firstChunkNumber b.2)) = true →
      (decide (firstChunkNumber b.2 ≤ firstChunkNumber c.2)) = true →
      (decide (firstChunkNumber a.2 ≤ firstChunkNumber c.2)) = true := by
    intro a b c hab hbc
    simp only [decide_eq_true_eq] at hab hbc ⊢
    omega
  have htot : ∀ a b : String × HeaderGroup,
      (decide (firstChunkNumber a.2 ≤ firstChunkNumber b.2)) = false →
      (decide (firstChunkNumber b.2 ≤ firstChunkNumber a.2)) = true := by
    intro a b hab
    simp only [decide_eq_false_iff_not] at hab
    simp only [decide_eq_true_eq]
    omega
  have hsorted := stableSortBy_pairwise htrans htot e.headers
  unfold sortHeaders
  refine List.Pairwise.imp_of_mem ?_ hsorted
  intro p q hpmem hqmem hle
  have hp' : p ∈ e.headers := mem_stableSortBy.mp hpmem
  have hq' : q ∈ e.headers := mem_stableSortBy.mp hqmem
  rw [← hident p hp', ← hident q hq']
  exact of_decide_eq_true hle

/-- C7 witness: two header groups of one document, first-arriving fragments
numbered 5 (header "H2", arriving first) and 2 (header "H1", arriving
second): the render order is H1 (key 2) before H2 (key 5). -/
theorem rendered_headers_by_first_arrival_witness :
    (∀ p ∈ c7entry.headers,
      firstChunkNumber p.2 = firstArrivalNum c7frags "a" p.1) ∧
    (sortHeaders c7entry.headers).Pairwise
      (fun p q =>
        firstArrivalNum c7frags "a" p.1 ≤ firstArrivalNum c7frags "a" q.1) :=
  rendered_headers_by_first_arrival String.length 100 c7frags "a" c7entry
    (by decide) (by decide)

/- ## Claim C8 -/

theorem ingest_tokenCount_general (count : String → Nat) (fs : List Fragment) :
    ∀ (b : DocumentStringBuilder) (sd : List String) (sh : List (String × String)),
      allAcceptedB count b fs = true →
      (∀ d, d ∈ sd ↔ hasKeyA d b.documents = true) →
      (∀ d hdr, (d, hdr) ∈ sh ↔ hasGroupB b d hdr = true) →
      (ingestList count b fs).tokenCount =
        b.tokenCount + claimedTokenTotal count sd sh fs := by
  induction fs with
  | nil =>
    intro b sd sh _ _ _
    simp [ingestList, claimedTokenTotal]
  | cons f rest ih =>
    intro b sd sh hacc hd hh
    obtain ⟨hok, hrest⟩ := allAccepted_cons hacc
    rw [ingestList_cons_ok rest hok]
    have hd' : ∀ d2, d2 ∈ seenInsert f.documentId sd ↔
        hasKeyA d2 (commitChunk count b f).documents = true := by
      intro d2
      rw [mem_seenInsert, commitChunk_hasKey, hd]
    have hh' : ∀ d2 hdr2,
        (d2, hdr2) ∈ (if (f.documentId, normHeader f.header) ∈ sh then sh
          else sh ++ [(f.documentId, normHeader f.header)]) ↔
        hasGroupB (commitChunk count b f) d2 hdr2 = true := by
      intro d2 hdr2
      rw [commitChunk_hasGroup]
      by_cases hin : (f.documentId, normHeader f.header) ∈ sh
      · rw [if_pos hin, hh]
        constructor
        · exact Or.inl
        · rintro (h | h)
          · exact h
          · rw [h.1, h.2]
            exact (hh _ _).mp hin
      · rw [if_neg hin]
        rw [List.mem_append, List.mem_singleton, hh]
        constructor
        · rintro (h | h)
          · exact Or.inl h
          · right
            exact ⟨congrArg Prod.fst h, congrArg Prod.snd h⟩
        · rintro (h | h)
          · exact Or.inl h
          · right
            rw [h.1, h.2]
    rw [ih _ _ _ hrest hd' hh']
    rw [commitChunk_tokenCount2]
    have e1 : (if hasKeyA f.documentId b.documents then 0 else count f.documentTitle) =
        (if f.documentId ∈ sd then 0 else count f.documentTitle) := by
      by_cases hk : f.documentId ∈ sd
      · rw [if_pos hk, if_pos ((hd _).mp hk)]
      · rw [if_neg hk, if_neg (fun hh2 => hk ((hd _).mpr hh2))]
    have e2 : (if hasGroupB b f.documentId (normHeader f.header) then 0
          else count (normHeader f.header)) =
        (if (f.documentId, normHeader f.header) ∈ sh then 0
          else count (normHeader f.header)) := by
      by_cases hk : (f.documentId, normHeader f.header) ∈ sh
      · rw [if_pos hk, if_pos ((hh _ _).mp hk)]
      · rw [if_neg hk, if_neg (fun hh2 => hk ((hh _ _).mpr hh2))]
    rw [e1, e2]
    simp only [claimedTokenTotal]
    omega

/-- C8 (confirmed): for an ingestion sequence whose calls all succeed, the
final `tokensConsumed` equals the sum over all fragments of
`count(content)`, plus `count(documentTitle)` once per distinct documentId,
plus `count(normalizedHeader)` once per distinct (documentId, normalized
header) pair — exactly the claim's first-seen incremental-cost formula,
stated here via `claimedTokenTotal`. -/
theorem final_tokenCount_matches_formula (count : String → Nat) (m : Int)
    (fs : List Fragment)
    (hacc : allAcceptedB count (DocumentStringBuilder.init m) fs = true) :
    (ingestList count (DocumentStringBuilder.init m) fs).tokenCount =
      claimedTokenTotal count [] [] fs := by
  have h1 : ∀ d, d ∈ ([] : List String) ↔
      hasKeyA d (DocumentStringBuilder.init m).documents = true := by
    intro d
    simp [hasKeyA, lookupA, DocumentStringBuilder.init]
  have h2 : ∀ d hdr, (d, hdr) ∈ ([] : List (String × String)) ↔
      hasGroupB (DocumentStringBuilder.init m) d hdr = true := by
    intro d hdr
    simp [hasGroupB, hasHeaderKey, lookupA, DocumentStringBuilder.init]
  have h := ingest_tokenCount_general count fs (DocumentStringBuilder.init m)
    [] [] hacc h1 h2
  simpa [DocumentStringBuilder.init] using h

/-- C8 witness: the formula evaluated on a concrete three-fragment sequence
(title "TA" and header "H" charged once, title "TB" charged once, every
content charged). -/
theorem final_tokenCount_matches_formula_witness :
    (ingestList String.length (DocumentStringBuilder.init 100) c8frags).tokenCount =
      claimedTokenTotal String.length [] [] c8frags :=
  final_tokenCount_matches_formula String.length 100 c8frags (by decide)

/- ## Claim C10 -/

theorem countOcc_append (s : String) (l1 l2 : List String) :
    countOcc s (l1 ++ l2) = countOcc s l1 + countOcc s l2 := by
  induction l1 with
  | nil => simp [countOcc]
  | cons x xs ih =>
    rw [List.cons_append]
    simp only [countOcc]
    rw [ih]
    omega

theorem countOcc_perm {l1 l2 : List String} (h : l1.Perm l2) (s : String) :
    countOcc s l1 = countOcc s l2 := by
  induction h with
  | nil => rfl
  | cons x _ ih => simp only [countOcc, ih]
  | swap x y l =>
    simp only [countOcc]
    omega
  | trans _ _ ih1 ih2 => exact ih1.trans ih2

theorem countOcc_flatMap_ge {α : Type} (s : String) (gf : α → List String)
    {a : α} {l : List α} (h : a ∈ l) :
    countOcc s (gf a) ≤ countOcc s (l.flatMap gf) := by
  induction l with
  | nil => simp at h
  | cons x xs ih =>
    rw [List.flatMap_cons, countOcc_append]
    rcases List.mem_cons.mp h with h1 | h1
    · rw [h1]
      omega
    · have := ih h1
      omega

theorem chunkLines_countOcc_ge (s : String) (cs : List Chunk) :
    ∀ prev, countOcc s (cs.map Chunk.content) ≤ countOcc s (chunkLines prev cs) := by
  induction cs with
  | nil => intro prev; simp [countOcc, chunkLines]
  | cons c rest ih =>
    intro prev
    rw [List.map_cons]
    simp only [chunkLines]
    rw [countOcc_append]
    simp only [countOcc]
    have := ih c.chunkNumber
    omega

theorem groupChunks_lookup {b : DocumentStringBuilder} {d hdr : String}
    (h : groupChunks b d hdr ≠ []) :
    ∃ e g, lookupA d b.documents = some e ∧ lookupA hdr e.headers = some g ∧
      g.chunks = groupChunks b d hdr := by
  cases hcase : lookupA d b.documents with
  | none =>
    exfalso
    apply h
    simp [groupChunks, hcase]
  | some e =>
    cases hh : lookupA hdr e.headers with
    | none =>
      exfalso
      apply h
      simp [groupChunks, entryChunks, hcase, hh]
    | some g =>
      exact ⟨e, g, rfl, hh, by simp [groupChunks, entryChunks, hcase, hh]⟩

theorem strLines_countOcc_of_group {b : DocumentStringBuilder} {d : String}
    {e : DocEntry} {hdr : String} {g : HeaderGroup}
    (he : lookupA d b.documents = some e) (hg : lookupA hdr e.headers = some g)
    (s : String) :
    countOcc s (g.chunks.map Chunk.content) ≤ countOcc s (strLines b) := by
  have hmemD : (d, e) ∈ sortDocs b.documents := by
    unfold sortDocs
    exact (stableSortBy_perm _ _).mem_iff.mpr (lookupA_mem he)
  have hmemH : (hdr, g) ∈ sortHeaders e.headers := by
    unfold sortHeaders
    exact (stableSortBy_perm _ _).mem_iff.mpr (lookupA_mem hg)
  have h1 : countOcc s (g.chunks.map Chunk.content) ≤
      countOcc s (headerGroupLines g) := by
    unfold headerGroupLines
    rw [countOcc_append]
    have hsorted : countOcc s ((sortChunks g.chunks).map Chunk.content) =
        countOcc s (g.chunks.map Chunk.content) :=
      countOcc_perm ((stableSortBy_perm _ g.chunks).map Chunk.content) s
    have h2 := chunkLines_countOcc_ge s (sortChunks g.chunks) 0
    omega
  have h3 : countOcc s (headerGroupLines g) ≤
      countOcc s ((sortHeaders e.headers).flatMap (fun p => headerGroupLines p.2)) := by
    have := countOcc_flatMap_ge s (fun p => headerGroupLines p.2) hmemH
    simpa using this
  have h4 : countOcc s ((sortHeaders e.headers).flatMap
        (fun p => headerGroupLines p.2)) ≤
      countOcc s (docLines d e) := by
    simp only [docLines]
    simp only [countOcc]
    rw [countOcc_append]
    omega
  have h5 : countOcc s (docLines d e) ≤ countOcc s (strLines b) := by
    have := countOcc_flatMap_ge s (fun p => docLines p.1 p.2) hmemD
    unfold strLines
    simpa using this
  omega

/-- C10 (confirmed): no deduplication.  Ingesting the exact same fragment
twice (both calls succeeding) appends two identical copies to the same
header group's chunk list, adds `count(content)` to `tokensConsumed` on both
calls (the second call adds exactly `count(content)`, the title and header
being already known), and the rendered output contains the content at least
twice. -/
theorem duplicate_fragment_not_deduplicated
    (count : String → Nat) (b b1 b2 : DocumentStringBuilder) (f : Fragment)
    (h1 : DocumentStringBuilder.addChunk count b f = Except.ok b1)
    (h2 : DocumentStringBuilder.addChunk count b1 f = Except.ok b2) :
    groupChunks b2 f.documentId (normHeader f.header) =
      groupChunks b f.documentId (normHeader f.header) ++
        [{ content := f.content, chunkNumber := f.chunkNumber },
         { content := f.content, chunkNumber := f.chunkNumber }] ∧
    b.tokenCount + count f.content ≤ b1.tokenCount ∧
    b2.tokenCount = b1.tokenCount + count f.content ∧
    2 ≤ countOcc f.content (strLines b2) := by
  have hb1 := (addChunk_eq_ok h1).1
  subst hb1
  have hb2 := (addChunk_eq_ok h2).1
  subst hb2
  have hgc : groupChunks (commitChunk count (commitChunk count b f) f)
      f.documentId (normHeader f.header) =
      groupChunks b f.documentId (normHeader f.header) ++
        [{ content := f.content, chunkNumber := f.chunkNumber },
         { content := f.content, chunkNumber := f.chunkNumber }] := by
    rw [commitChunk_groupChunks_self, commitChunk_groupChunks_self]
    simp
  refine ⟨hgc, ?_, ?_, ?_⟩
  · rw [commitChunk_tokenCount2]
    omega
  · rw [commitChunk_tokenCount2 count (commitChunk count b f) f]
    have hk : hasKeyA f.documentId (commitChunk count b f).documents = true :=
      (commitChunk_hasKey count b f f.documentId).mpr (Or.inr rfl)
    have hgb : hasGroupB (commitChunk count b f) f.documentId
        (normHeader f.header) = true :=
      (commitChunk_hasGroup count b f _ _).mpr (Or.inr ⟨rfl, rfl⟩)
    rw [if_pos hk, if_pos hgb]
    omega
  · have hne : groupChunks (commitChunk count (commitChunk count b f) f)
        f.documentId (normHeader f.header) ≠ [] := by
      rw [hgc]
      simp
    obtain ⟨e, gq, he, hgq, hchunks⟩ := groupChunks_lookup hne
    have hocc := strLines_countOcc_of_group he hgq f.content
    have hcnt : 2 ≤ countOcc f.content (gq.chunks.map Chunk.content) := by
      rw [hchunks, hgc, List.map_append, countOcc_append]
      have hc2 : countOcc f.content
          (List.map Chunk.content
            [{ content := f.content, chunkNumber := f.chunkNumber },
             { content := f.content, chunkNumber := f.chunkNumber }]) = 2 := by
        simp [countOcc]
      omega
    omega

/-- C10 witness: the same fragment (content "ab", chunk number 1) ingested
twice into a fresh builder with budget 20. -/
theorem duplicate_fragment_not_deduplicated_witness :
    groupChunks c10b2 "d" (normHeader none) =
      groupChunks (DocumentStringBuilder.init 20) "d" (normHeader none) ++
        [{ content := "ab", chunkNumber := 1 }, { content := "ab", chunkNumber := 1 }] ∧
    (DocumentStringBuilder.init 20).tokenCount + String.length "ab" ≤ c10b1.tokenCount ∧
    c10b2.tokenCount = c10b1.tokenCount + String.length "ab" ∧
    2 ≤ countOcc "ab" (strLines c10b2) :=
  duplicate_fragment_not_deduplicated String.length (DocumentStringBuilder.init 20)
    c10b1 c10b2 ⟨"d", "T", none, "ab", 1⟩ rfl rfl
